import Mathlib

/-
Verification of the MCQ extraction pipeline
(backend/services/ai_processor.py, backend/services/json_formatter.py,
backend/services/pdf_reader.py).

Strings are modelled as lists of characters; Python whitespace handling
(str.split, str.strip, str.lower, ' '.join) is embedded over that model.
External I/O (the generative-model API call, pdfplumber) is modelled by
oracle parameters: an oracle value stands for the outcome of one external
call, with Except.error standing for a raised exception.
-/

namespace MCQExtractor

/-- Whitespace test matching Python str.split / str.strip default behaviour
on the ASCII whitespace characters (space, tab, newline, carriage return,
vertical tab, form feed). -/
def pyIsSpace (c : Char) : Bool :=
  c = ' ' || c = '\t' || c = '\n' || c = '\r' || c = '\x0b' || c = '\x0c'

/-- Python str.strip with no argument: remove leading and trailing
whitespace. -/
def stripStr (s : List Char) : List Char :=
  ((s.dropWhile pyIsSpace).reverse.dropWhile pyIsSpace).reverse

/-- Python str.lower, modelled per character. -/
def lowerStr (s : List Char) : List Char :=
  s.map Char.toLower

/-- Fueled worker for Python str.split() with no separator: split on runs
of whitespace, dropping empty pieces.  The fuel argument only forces
termination; it is always called with fuel at least the length of the
list. -/
def splitWsGo : Nat → List Char → List (List Char)
  | 0, _ => []
  | _ + 1, [] => []
  | fuel + 1, c :: cs =>
    if pyIsSpace c then
      splitWsGo fuel cs
    else
      ((c :: cs).takeWhile (fun d => !pyIsSpace d)) ::
        splitWsGo fuel ((c :: cs).dropWhile (fun d => !pyIsSpace d))

/-- Python str.split() with no separator. -/
def splitWs (s : List Char) : List (List Char) :=
  splitWsGo s.length s

/-- Python ' '.join(words): words joined by a single space. -/
def joinWords : List (List Char) → List Char
  | [] => []
  | [w] => w
  | w :: x :: rest => w ++ ' ' :: joinWords (x :: rest)

/-- Python text.replace of a newline by a space, applied character-wise. -/
def replaceNlBySpace (s : List Char) : List Char :=
  s.map (fun c => if c = '\n' then ' ' else c)

/-- Python text.replace of a carriage return by the empty string. -/
def removeCr (s : List Char) : List Char :=
  s.filter (fun c => !(c = '\r'))

/-- JSONFormatter._clean_text: collapse whitespace via split and join,
replace newlines by spaces, drop carriage returns, strip.  The empty
string is returned unchanged (the falsy-input guard in the source). -/
def cleanText (s : List Char) : List Char :=
  if s = [] then []
  else stripStr (removeCr (replaceNlBySpace (joinWords (splitWs s))))

/-! Chunker (AIProcessor._split_text_into_chunks). -/

/-- Chunk size constant from ai_processor.py. -/
def CHUNK_SIZE : Nat := 10000

/-- The raw fixed-size windows of the chunking loop, before the per-chunk
strip: text[start:start+n] for start = 0, n, 2n, ...  Fueled for
termination; the fuel is always at least the length of the text, which
suffices for any positive window size n. -/
def windowsGo : Nat → List Char → Nat → List (List Char)
  | 0, _, _ => []
  | _ + 1, [], _ => []
  | fuel + 1, text, n => text.take n :: windowsGo fuel (text.drop n) n

/-- The raw fixed-size windows of the chunking loop. -/
def windows (text : List Char) (n : Nat) : List (List Char) :=
  windowsGo text.length text n

/-- AIProcessor._split_text_into_chunks with the window size as a
parameter: each window text[start:start+n] is stripped before being
appended. -/
def splitChunksGo : Nat → List Char → Nat → List (List Char)
  | 0, _, _ => []
  | _ + 1, [], _ => []
  | fuel + 1, text, n => stripStr (text.take n) :: splitChunksGo fuel (text.drop n) n

/-- AIProcessor._split_text_into_chunks over windows of size n. -/
def splitChunks (text : List Char) (n : Nat) : List (List Char) :=
  splitChunksGo text.length text n

/-- AIProcessor._split_text_into_chunks as in the source, at CHUNK_SIZE. -/
def splitTextIntoChunks (text : List Char) : List (List Char) :=
  splitChunks text CHUNK_SIZE

/-! JSON values, as produced by json.loads on the model response. -/

/-- A decoded JSON value.  Python booleans are a subclass of int, which
matters for the isinstance(x, int) checks below. -/
inductive JVal where
  | jnull
  | jbool (b : Bool)
  | jint (n : Int)
  | jstr (s : List Char)
  | jarr (elems : List JVal)
  | jobj (fields : List (List Char × JVal))

open JVal

/-- Python truthiness of a decoded JSON value. -/
def jTruthy : JVal → Bool
  | jnull => false
  | jbool b => b
  | jint n => !(n = 0)
  | jstr s => !(s = [])
  | jarr l => !l.isEmpty
  | jobj f => !f.isEmpty

/-- Python isinstance(v, int) with the integer value: true JSON integers,
and booleans (bool is a subclass of int in Python, True counting as 1). -/
def jAsInt : JVal → Option Int
  | jint n => some n
  | jbool b => some (if b then 1 else 0)
  | _ => none

/-- dict.get with a default, over the association-list model of a JSON
object. -/
def jGet : List (List Char × JVal) → List Char → JVal → JVal
  | [], _, dflt => dflt
  | (k, v) :: rest, key, dflt => if k = key then v else jGet rest key dflt

mutual

/-- Python repr() of a decoded JSON value, used by str() on non-string
values.  String escaping inside repr is not modelled (no theorem below
evaluates repr on strings needing escapes). -/
def pyRepr : JVal → List Char
  | jnull => "None".toList
  | jbool true => "True".toList
  | jbool false => "False".toList
  | jint n => (toString n).toList
  | jstr s => '\x27' :: s ++ ['\x27']
  | jarr l => '[' :: joinComma (pyReprList l) ++ [']']
  | jobj f => '\x7b' :: joinComma (pyReprFields f) ++ ['\x7d']

def pyReprList : List JVal → List (List Char)
  | [] => []
  | v :: rest => pyRepr v :: pyReprList rest

def pyReprFields : List (List Char × JVal) → List (List Char)
  | [] => []
  | (k, v) :: rest => (pyRepr (jstr k) ++ ':' :: ' ' :: pyRepr v) :: pyReprFields rest

/-- Comma-space join used by Python container reprs. -/
def joinComma : List (List Char) → List Char
  | [] => []
  | [w] => w
  | w :: x :: rest => w ++ ',' :: ' ' :: joinComma (x :: rest)

end

/-- Python str() of a decoded JSON value. -/
def pyStr : JVal → List Char
  | jstr s => s
  | v => pyRepr v

/-- A cleaned MCQ, the shape returned by AIProcessor._clean_mcq: question
stripped, options stringified, integer correct answer, explanation
stringified. -/
structure Mcq where
  question : List Char
  options : List (List Char)
  correct_answer : Int
  explanation : List Char
deriving DecidableEq

/-- AIProcessor._clean_mcq: None unless the value is an object with a
truthy question, a list of exactly 4 options and an integer correct
answer within 0..3; otherwise the cleaned record. -/
def cleanMcq : JVal → Option Mcq
  | jobj fields =>
    let question := jGet fields "question".toList (jstr [])
    let options := jGet fields "options".toList (jarr [])
    let correct := jGet fields "correct_answer".toList jnull
    if !jTruthy question then none
    else
      match options with
      | jarr opts =>
        if !(opts.length = 4) then none
        else
          match jAsInt correct with
          | none => none
          | some n =>
            if n < 0 ∨ n > 3 then none
            else
              some ⟨stripStr (pyStr question), opts.map pyStr, n,
                    pyStr (jGet fields "explanation".toList (jstr "No explanation".toList))⟩
      | _ => none
  | _ => none

/-- The list comprehension in AIProcessor._parse_response applied to the
decoded array: clean each element, keeping only the elements whose
cleaning does not return None (a returned dict is always truthy). -/
def parseDecoded (elems : List JVal) : List Mcq :=
  elems.filterMap cleanMcq

/-- AIProcessor._validate_mcqs applied to a list of cleaned MCQs: every
element must have exactly 4 options and an integer correct answer in
0..3 (the list and dict isinstance checks hold by typing here). -/
def validateMcqs (mcqs : List Mcq) : Bool :=
  mcqs.all fun m =>
    decide (m.options.length = 4) && decide (0 ≤ m.correct_answer) && decide (m.correct_answer ≤ 3)

/-! Per-chunk extraction with retries (AIProcessor._extract_from_text).
The external call is an oracle from the attempt number to either a raised
exception (Except.error) or a decoded response array; the response string
handling inside _parse_response (bracket search, json.loads, including
its own catch returning an empty list) is absorbed into the oracle
producing some decoded array, possibly empty. -/

/-- Retry bound MAX_RETRIES from ai_processor.py. -/
def MAX_RETRIES : Nat := 3

/-- The retry loop of AIProcessor._extract_from_text: on an exception the
next attempt runs; on a response whose cleaned list validates, that list
is returned; after the attempts are exhausted the empty list is
returned. -/
def extractAttemptsGo (oracle : Nat → Except Unit (List JVal)) : Nat → Nat → List Mcq
  | 0, _ => []
  | fuel + 1, attempt =>
    match oracle attempt with
    | Except.error _ => extractAttemptsGo oracle fuel (attempt + 1)
    | Except.ok elems =>
      let mcqs := parseDecoded elems
      if validateMcqs mcqs then mcqs else extractAttemptsGo oracle fuel (attempt + 1)

/-- AIProcessor._extract_from_text for one chunk. -/
def extractFromText (oracle : Nat → Except Unit (List JVal)) : List Mcq :=
  extractAttemptsGo oracle MAX_RETRIES 0

/-- AIProcessor._merge_mcqs: deduplicate by lower-cased stripped question
text, keeping the first occurrence, skipping records with an empty key. -/
def mergeMcqsGo : List Mcq → List (List Char) → List Mcq
  | [], _ => []
  | m :: rest, seen =>
    let key := stripStr (lowerStr m.question)
    if !(key = []) ∧ key ∉ seen then m :: mergeMcqsGo rest (key :: seen)
    else mergeMcqsGo rest seen

/-- AIProcessor._merge_mcqs. -/
def mergeMcqs (mcqs : List Mcq) : List Mcq :=
  mergeMcqsGo mcqs []

/-- AIProcessor._get_mock_mcqs: the fixed demo records returned when no
API key is configured. -/
def mockMcqs : List Mcq :=
  [⟨"What is the capital of France?".toList,
    ["London".toList, "Paris".toList, "Berlin".toList, "Madrid".toList], 1,
    "Paris is the capital of France.".toList⟩,
   ⟨"Which planet is the Red Planet?".toList,
    ["Venus".toList, "Mars".toList, "Jupiter".toList, "Saturn".toList], 1,
    "Mars appears red due to iron oxide.".toList⟩,
   ⟨"What is 2 + 2?".toList,
    ["3".toList, "4".toList, "5".toList, "6".toList], 1,
    "2 + 2 equals 4.".toList⟩]

/-- AIProcessor._extract_from_chunks: split, extract per chunk in order
(the oracle is indexed by chunk index and attempt number), concatenate,
merge. -/
def extractFromChunks (text : List Char) (oracle : Nat → Nat → Except Unit (List JVal)) : List Mcq :=
  mergeMcqs ((splitTextIntoChunks text).enum.map (fun p => extractFromText (oracle p.fst))).flatten

/-- AIProcessor.extract_mcq: mock data when the API key is empty,
otherwise chunked extraction for oversized text, otherwise one direct
extraction (chunk index 0). -/
def extractMcq (apiKey : List Char) (text : List Char)
    (oracle : Nat → Nat → Except Unit (List JVal)) : List Mcq :=
  if apiKey = [] then mockMcqs
  else if CHUNK_SIZE < text.length then extractFromChunks text oracle
  else extractFromText (oracle 0)

/-! JSONFormatter.format_mcq. -/

/-- The correct_answer field of a raw candidate record: a Python int
(booleans included, modelled by their integer value), a string, or any
other value (None, list, ...), which fails both isinstance branches. -/
inductive CAns where
  | idx (i : Int)
  | txt (s : List Char)
  | other
deriving DecidableEq

/-- A raw candidate record fed to JSONFormatter.format_mcq.  The
malformed constructor stands for any dict whose question or options
field raises inside the loop body (for example a non-string question);
such a record is skipped by the catch-all handler before any state is
touched. -/
inductive Candidate where
  | mk (question : List Char) (options : List (List Char)) (correct_answer : CAns)
  | malformed
deriving DecidableEq

/-- A formatted output record of JSONFormatter.format_mcq. -/
structure Record where
  id : Nat
  question : List Char
  options : List (List Char)
  answer : List Char
deriving DecidableEq

/-- The answer-resolution step of format_mcq: an integer index must be
within range of the cleaned options and selects that option; a string is
cleaned and used directly; anything else rejects the record. -/
def resolveAnswer : CAns → List (List Char) → Option (List Char)
  | CAns.idx i, options =>
    if 0 ≤ i ∧ i < options.length then some (options.getD i.toNat []) else none
  | CAns.txt s, _ => some (cleanText s)
  | CAns.other, _ => none

/-- The dedup key of a candidate: question cleaned, lower-cased,
stripped, exactly as computed in the loop body (None for a malformed
record, which never reaches the key computation). -/
def keyOf : Candidate → Option (List Char)
  | Candidate.mk q _ _ => some (stripStr (lowerStr (cleanText q)))
  | Candidate.malformed => none

/-- The dedup key of an output record (its question is already cleaned). -/
def rkey (r : Record) : List Char :=
  stripStr (lowerStr r.question)

/-- The loop of JSONFormatter.format_mcq: clean question and options,
resolve the answer (skip on failure), skip seen dedup keys, record the
key as seen, then require exactly 4 options and the answer among the
options, and only then append with the next sequential id. -/
def formatAux : List Candidate → List (List Char) → Nat → List Record
  | [], _, _ => []
  | Candidate.malformed :: rest, seen, nid => formatAux rest seen nid
  | Candidate.mk q rawOpts ca :: rest, seen, nid =>
    let question := cleanText q
    let options := rawOpts.map cleanText
    match resolveAnswer ca options with
    | none => formatAux rest seen nid
    | some answer =>
      let key := stripStr (lowerStr question)
      if key ∈ seen then formatAux rest seen nid
      else if !(options.length = 4) then formatAux rest (key :: seen) nid
      else if answer ∉ options then formatAux rest (key :: seen) nid
      else ⟨nid, question, options, answer⟩ :: formatAux rest (key :: seen) (nid + 1)

/-- JSONFormatter.format_mcq. -/
def formatMcq (mcqs : List Candidate) : List Record :=
  formatAux mcqs [] 1

/-- An output record viewed again as a candidate: the answer string goes
back in as a string-valued correct_answer. -/
def recordToCandidate (r : Record) : Candidate :=
  Candidate.mk r.question r.options (CAns.txt r.answer)

/-- The seen-set of format_mcq after processing a list of candidates,
mirroring exactly the state evolution of the formatAux loop. -/
def seenAfter : List Candidate → List (List Char) → List (List Char)
  | [], seen => seen
  | Candidate.malformed :: rest, seen => seenAfter rest seen
  | Candidate.mk q rawOpts ca :: rest, seen =>
    match resolveAnswer ca (rawOpts.map cleanText) with
    | none => seenAfter rest seen
    | some _ =>
      if stripStr (lowerStr (cleanText q)) ∈ seen then seenAfter rest seen
      else seenAfter rest (stripStr (lowerStr (cleanText q)) :: seen)

/-! PDFReader.get_page_count. -/

/-- PDFReader.get_page_count: the pdfplumber import, open and page-list
length are modelled by one oracle value; any exception anywhere in the
body (Except.error) is caught and turned into 0. -/
def getPageCount (openResult : Except Unit Nat) : Nat :=
  match openResult with
  | Except.ok n => n
  | Except.error _ => 0

/-! Concrete sample inputs used in witness and counterexample theorems. -/

/-- A structurally valid decoded MCQ object. -/
def sampleGoodElem : JVal :=
  jobj [("question".toList, jstr "Q?".toList),
        ("options".toList, jarr [jstr "1".toList, jstr "2".toList,
                                 jstr "3".toList, jstr "4".toList]),
        ("correct_answer".toList, jint 0)]

/-- A decoded MCQ object failing structural validation (2 options). -/
def sampleBadElem : JVal :=
  jobj [("question".toList, jstr "B?".toList),
        ("options".toList, jarr [jstr "1".toList, jstr "2".toList]),
        ("correct_answer".toList, jint 0)]

/-! Theory of the whitespace-cleaning pipeline. -/

lemma length_dropWhile_le (p : Char → Bool) (l : List Char) :
    (l.dropWhile p).length ≤ l.length := by
  induction l with
  | nil => simp
  | cons c cs ih =>
    rw [List.dropWhile_cons]
    split
    · exact Nat.le_trans ih (Nat.le_succ _)
    · exact Nat.le_refl _

lemma splitWsGo_succ_cons (f : Nat) (c : Char) (cs : List Char) :
    splitWsGo (f + 1) (c :: cs) =
      if pyIsSpace c then splitWsGo f cs
      else ((c :: cs).takeWhile (fun d => !pyIsSpace d)) ::
        splitWsGo f ((c :: cs).dropWhile (fun d => !pyIsSpace d)) := rfl

lemma dropWhile_cons_word {c : Char} (cs : List Char) (hc : pyIsSpace c = false) :
    (c :: cs).dropWhile (fun d => !pyIsSpace d) = cs.dropWhile (fun d => !pyIsSpace d) := by
  rw [List.dropWhile_cons, if_pos]
  rw [hc]; rfl

lemma splitWsGo_fuel : ∀ (f1 : Nat) (s : List Char) (f2 : Nat),
    s.length ≤ f1 → s.length ≤ f2 → splitWsGo f1 s = splitWsGo f2 s := by
  intro f1
  induction f1 with
  | zero =>
    intro s f2 h1 _
    have hs : s = [] := List.length_eq_zero.mp (Nat.le_zero.mp h1)
    subst hs
    cases f2 <;> rfl
  | succ f ih =>
    intro s f2 h1 h2
    cases s with
    | nil => cases f2 <;> rfl
    | cons c cs =>
      cases f2 with
      | zero => simp at h2
      | succ g =>
        have hcs1 : cs.length ≤ f := Nat.le_of_succ_le_succ h1
        have hcs2 : cs.length ≤ g := Nat.le_of_succ_le_succ h2
        rw [splitWsGo_succ_cons, splitWsGo_succ_cons]
        cases hc : pyIsSpace c with
        | true =>
          rw [if_pos rfl, if_pos rfl]
          exact ih cs g hcs1 hcs2
        | false =>
          have hlen : ((c :: cs).dropWhile (fun d => !pyIsSpace d)).length ≤ cs.length := by
            rw [dropWhile_cons_word cs hc]
            exact length_dropWhile_le _ _
          rw [if_neg (by simp), if_neg (by simp)]
          rw [ih _ g (Nat.le_trans hlen hcs1) (Nat.le_trans hlen hcs2)]

lemma splitWs_cons_space {c : Char} (cs : List Char) (hc : pyIsSpace c = true) :
    splitWs (c :: cs) = splitWs cs := by
  show splitWsGo (cs.length + 1) (c :: cs) = splitWsGo cs.length cs
  rw [splitWsGo_succ_cons, if_pos]
  rw [hc]

lemma splitWs_cons_word {c : Char} (cs : List Char) (hc : pyIsSpace c = false) :
    splitWs (c :: cs) =
      ((c :: cs).takeWhile (fun d => !pyIsSpace d)) ::
        splitWs ((c :: cs).dropWhile (fun d => !pyIsSpace d)) := by
  show splitWsGo (cs.length + 1) (c :: cs) = _
  rw [splitWsGo_succ_cons, if_neg]
  · unfold splitWs
    congr 1
    apply splitWsGo_fuel
    · rw [dropWhile_cons_word cs hc]
      exact length_dropWhile_le _ _
    · exact Nat.le_refl _
  · rw [hc]; simp

lemma splitWs_clean : ∀ (s : List Char), ∀ w ∈ splitWs s,
    w ≠ [] ∧ ∀ c ∈ w, pyIsSpace c = false := by
  have main : ∀ (fuel : Nat) (s : List Char), s.length ≤ fuel →
      ∀ w ∈ splitWsGo fuel s, w ≠ [] ∧ ∀ c ∈ w, pyIsSpace c = false := by
    intro fuel
    induction fuel with
    | zero => intro s _ w hw; simp [splitWsGo] at hw
    | succ f ih =>
      intro s hs w hw
      cases s with
      | nil => simp [splitWsGo] at hw
      | cons c cs =>
        have hcs : cs.length ≤ f := Nat.le_of_succ_le_succ hs
        rw [splitWsGo_succ_cons] at hw
        cases hc : pyIsSpace c with
        | true =>
          rw [if_pos (by rw [hc])] at hw
          exact ih cs hcs w hw
        | false =>
          rw [if_neg (by rw [hc]; simp)] at hw
          rcases List.mem_cons.mp hw with hw | hw
          · subst hw
            constructor
            · rw [List.takeWhile_cons, if_pos (by rw [hc]; rfl)]
              simp
            · intro d hd
              have := List.mem_takeWhile_imp hd
              simpa using this
          · exact ih _ (by
              rw [dropWhile_cons_word cs hc]
              exact Nat.le_trans (length_dropWhile_le _ _) hcs) w hw
  intro s
  exact main s.length s (Nat.le_refl _)

lemma takeWhile_all_append (w t : List Char) (p : Char → Bool)
    (hw : ∀ c ∈ w, p c = true) : (w ++ t).takeWhile p = w ++ t.takeWhile p := by
  induction w with
  | nil => simp
  | cons c cs ih =>
    have hc := hw c (List.mem_cons_self c cs)
    rw [List.cons_append, List.takeWhile_cons, if_pos hc,
      ih (fun d hd => hw d (List.mem_cons_of_mem c hd))]
    rfl

lemma dropWhile_all_append (w t : List Char) (p : Char → Bool)
    (hw : ∀ c ∈ w, p c = true) : (w ++ t).dropWhile p = t.dropWhile p := by
  induction w with
  | nil => simp
  | cons c cs ih =>
    have hc := hw c (List.mem_cons_self c cs)
    rw [List.cons_append, List.dropWhile_cons, if_pos hc,
      ih (fun d hd => hw d (List.mem_cons_of_mem c hd))]

lemma splitWs_word_prepend (w t : List Char) (hw : w ≠ [])
    (hclean : ∀ c ∈ w, pyIsSpace c = false)
    (ht : t = [] ∨ ∃ d t', t = d :: t' ∧ pyIsSpace d = true) :
    splitWs (w ++ t) = w :: splitWs t := by
  cases w with
  | nil => exact absurd rfl hw
  | cons c w' =>
    have hall : ∀ d ∈ c :: w', (fun d => !pyIsSpace d) d = true := by
      intro d hd; simp [hclean d hd]
    have htk : t.takeWhile (fun d => !pyIsSpace d) = [] := by
      rcases ht with h | ⟨d, t', rfl, hd⟩
      · simp [h]
      · rw [List.takeWhile_cons]; simp [hd]
    have hdp : t.dropWhile (fun d => !pyIsSpace d) = t := by
      rcases ht with h | ⟨d, t', rfl, hd⟩
      · simp [h]
      · rw [List.dropWhile_cons]; simp [hd]
    rw [List.cons_append,
      splitWs_cons_word (w' ++ t) (hclean c (List.mem_cons_self c w')),
      show c :: (w' ++ t) = (c :: w') ++ t from rfl,
      takeWhile_all_append _ _ _ hall, dropWhile_all_append _ _ _ hall, htk, hdp,
      List.append_nil]

lemma splitWs_joinWords : ∀ (ws : List (List Char)),
    (∀ w ∈ ws, w ≠ [] ∧ ∀ c ∈ w, pyIsSpace c = false) →
    splitWs (joinWords ws) = ws := by
  intro ws
  induction ws with
  | nil => intro _; rfl
  | cons w rest ih =>
    intro h
    have hw := h w (List.mem_cons_self w rest)
    cases rest with
    | nil =>
      show splitWs (joinWords [w]) = [w]
      have : joinWords [w] = w ++ [] := by simp [joinWords]
      rw [this, splitWs_word_prepend w [] hw.1 hw.2 (Or.inl rfl)]
      rfl
    | cons x rest' =>
      show splitWs (w ++ ' ' :: joinWords (x :: rest')) = w :: x :: rest'
      rw [splitWs_word_prepend w (' ' :: joinWords (x :: rest')) hw.1 hw.2
        (Or.inr ⟨' ', joinWords (x :: rest'), rfl, by decide⟩)]
      rw [splitWs_cons_space _ (by decide)]
      rw [ih (fun v hv => h v (List.mem_cons_of_mem w hv))]

lemma mem_joinWords : ∀ (ws : List (List Char)) (c : Char), c ∈ joinWords ws →
    c = ' ' ∨ ∃ w, w ∈ ws ∧ c ∈ w := by
  intro ws
  induction ws with
  | nil => intro c hc; simp [joinWords] at hc
  | cons w rest ih =>
    intro c hc
    cases rest with
    | nil =>
      exact Or.inr ⟨w, List.mem_cons_self w [], hc⟩
    | cons x rest' =>
      have : joinWords (w :: x :: rest') = w ++ ' ' :: joinWords (x :: rest') := rfl
      rw [this, List.mem_append] at hc
      rcases hc with hc | hc
      · exact Or.inr ⟨w, List.mem_cons_self w _, hc⟩
      · rcases List.mem_cons.mp hc with hc | hc
        · exact Or.inl hc
        · rcases ih c hc with h | ⟨v, hv, hcv⟩
          · exact Or.inl h
          · exact Or.inr ⟨v, List.mem_cons_of_mem w hv, hcv⟩

lemma joinWords_char_class (ws : List (List Char))
    (h : ∀ w ∈ ws, w ≠ [] ∧ ∀ c ∈ w, pyIsSpace c = false) :
    ∀ c ∈ joinWords ws, c = ' ' ∨ pyIsSpace c = false := by
  intro c hc
  rcases mem_joinWords ws c hc with h1 | ⟨w, hw, hcw⟩
  · exact Or.inl h1
  · exact Or.inr ((h w hw).2 c hcw)

lemma replaceNlBySpace_eq_self (s : List Char)
    (h : ∀ c ∈ s, c = ' ' ∨ pyIsSpace c = false) : replaceNlBySpace s = s := by
  unfold replaceNlBySpace
  induction s with
  | nil => rfl
  | cons c cs ih =>
    have hc := h c (List.mem_cons_self c cs)
    have hcn : ¬(c = '\n') := by
      rcases hc with h1 | h1
      · subst h1; decide
      · intro h2; subst h2; simp [pyIsSpace] at h1
    rw [List.map_cons, if_neg hcn, ih (fun d hd => h d (List.mem_cons_of_mem c hd))]

lemma removeCr_eq_self (s : List Char)
    (h : ∀ c ∈ s, c = ' ' ∨ pyIsSpace c = false) : removeCr s = s := by
  apply List.filter_eq_self.mpr
  intro c hc
  rcases h c hc with h1 | h1
  · subst h1; decide
  · simp only [Bool.not_eq_true', decide_eq_false_iff_not]
    intro h2
    subst h2
    simp [pyIsSpace] at h1

lemma joinWords_head_cons : ∀ (c : Char) (w' : List Char) (rest : List (List Char)),
    ∃ t, joinWords ((c :: w') :: rest) = c :: t := by
  intro c w' rest
  cases rest with
  | nil => exact ⟨w', rfl⟩
  | cons x r => exact ⟨w' ++ ' ' :: joinWords (x :: r), rfl⟩

lemma joinWords_reverse_cons : ∀ (ws : List (List Char)), ws ≠ [] →
    (∀ w ∈ ws, w ≠ [] ∧ ∀ c ∈ w, pyIsSpace c = false) →
    ∃ c t, (joinWords ws).reverse = c :: t ∧ pyIsSpace c = false := by
  intro ws
  induction ws with
  | nil => intro h _; exact absurd rfl h
  | cons w rest ih =>
    intro _ h
    have hw := h w (List.mem_cons_self w rest)
    cases rest with
    | nil =>
      have hne : w.reverse ≠ [] := by
        intro hrev
        exact hw.1 (by simpa using congrArg List.reverse hrev)
      cases hrev : w.reverse with
      | nil => exact absurd hrev hne
      | cons c t =>
        refine ⟨c, t, by simpa [joinWords] using hrev, ?_⟩
        have : c ∈ w.reverse := by rw [hrev]; exact List.mem_cons_self c t
        exact hw.2 c (List.mem_reverse.mp this)
    | cons x rest' =>
      rcases ih (by simp) (fun v hv => h v (List.mem_cons_of_mem w hv)) with ⟨c, t, hJ, hc⟩
      refine ⟨c, t ++ ' ' :: w.reverse, ?_, hc⟩
      show (w ++ ' ' :: joinWords (x :: rest')).reverse = _
      rw [List.reverse_append, List.reverse_cons, hJ]
      simp

lemma stripStr_joinWords (ws : List (List Char))
    (h : ∀ w ∈ ws, w ≠ [] ∧ ∀ c ∈ w, pyIsSpace c = false) :
    stripStr (joinWords ws) = joinWords ws := by
  cases ws with
  | nil => rfl
  | cons w rest =>
    have hw := h w (List.mem_cons_self w rest)
    have hd : (joinWords (w :: rest)).dropWhile pyIsSpace = joinWords (w :: rest) := by
      cases w with
      | nil => exact absurd rfl hw.1
      | cons c w' =>
        rcases joinWords_head_cons c w' rest with ⟨t, ht⟩
        rw [ht, List.dropWhile_cons, if_neg]
        rw [hw.2 c (List.mem_cons_self c w')]
        simp
    have hr : (joinWords (w :: rest)).reverse.dropWhile pyIsSpace =
        (joinWords (w :: rest)).reverse := by
      rcases joinWords_reverse_cons (w :: rest) (by simp) h with ⟨c, t, hJ, hc⟩
      rw [hJ, List.dropWhile_cons, if_neg]
      rw [hc]
      simp
    unfold stripStr
    rw [hd, hr, List.reverse_reverse]

lemma cleanText_eq (s : List Char) : cleanText s = joinWords (splitWs s) := by
  by_cases hs : s = []
  · subst hs; rfl
  · have hclean := splitWs_clean s
    have hchar := joinWords_char_class (splitWs s) hclean
    unfold cleanText
    rw [if_neg hs, replaceNlBySpace_eq_self _ hchar, removeCr_eq_self _ hchar,
      stripStr_joinWords _ hclean]

lemma cleanText_idem (s : List Char) : cleanText (cleanText s) = cleanText s := by
  rw [cleanText_eq s, cleanText_eq (joinWords (splitWs s)),
    splitWs_joinWords (splitWs s) (splitWs_clean s)]

/-! Invariants of the format_mcq loop. -/

lemma formatAux_cons_mk (q : List Char) (rawOpts : List (List Char)) (ca : CAns)
    (rest : List Candidate) (seen : List (List Char)) (nid : Nat) :
    formatAux (Candidate.mk q rawOpts ca :: rest) seen nid =
      match resolveAnswer ca (rawOpts.map cleanText) with
      | none => formatAux rest seen nid
      | some answer =>
        if stripStr (lowerStr (cleanText q)) ∈ seen then formatAux rest seen nid
        else if !((rawOpts.map cleanText).length = 4) then
          formatAux rest (stripStr (lowerStr (cleanText q)) :: seen) nid
        else if answer ∉ rawOpts.map cleanText then
          formatAux rest (stripStr (lowerStr (cleanText q)) :: seen) nid
        else ⟨nid, cleanText q, rawOpts.map cleanText, answer⟩ ::
          formatAux rest (stripStr (lowerStr (cleanText q)) :: seen) (nid + 1) := rfl

lemma formatAux_cons_none (q : List Char) (rawOpts : List (List Char)) (ca : CAns)
    (rest : List Candidate) (seen : List (List Char)) (nid : Nat)
    (hres : resolveAnswer ca (rawOpts.map cleanText) = none) :
    formatAux (Candidate.mk q rawOpts ca :: rest) seen nid = formatAux rest seen nid := by
  rw [formatAux_cons_mk, hres]

lemma formatAux_cons_some (q : List Char) (rawOpts : List (List Char)) (ca : CAns)
    (rest : List Candidate) (seen : List (List Char)) (nid : Nat) (answer : List Char)
    (hres : resolveAnswer ca (rawOpts.map cleanText) = some answer) :
    formatAux (Candidate.mk q rawOpts ca :: rest) seen nid =
      if stripStr (lowerStr (cleanText q)) ∈ seen then formatAux rest seen nid
      else if !((rawOpts.map cleanText).length = 4) then
        formatAux rest (stripStr (lowerStr (cleanText q)) :: seen) nid
      else if answer ∉ rawOpts.map cleanText then
        formatAux rest (stripStr (lowerStr (cleanText q)) :: seen) nid
      else ⟨nid, cleanText q, rawOpts.map cleanText, answer⟩ ::
        formatAux rest (stripStr (lowerStr (cleanText q)) :: seen) (nid + 1) := by
  rw [formatAux_cons_mk, hres]

lemma seenAfter_cons_none (q : List Char) (rawOpts : List (List Char)) (ca : CAns)
    (rest : List Candidate) (seen : List (List Char))
    (hres : resolveAnswer ca (rawOpts.map cleanText) = none) :
    seenAfter (Candidate.mk q rawOpts ca :: rest) seen = seenAfter rest seen := by
  rw [seenAfter, hres]

lemma seenAfter_cons_some (q : List Char) (rawOpts : List (List Char)) (ca : CAns)
    (rest : List Candidate) (seen : List (List Char)) (answer : List Char)
    (hres : resolveAnswer ca (rawOpts.map cleanText) = some answer) :
    seenAfter (Candidate.mk q rawOpts ca :: rest) seen =
      if stripStr (lowerStr (cleanText q)) ∈ seen then seenAfter rest seen
      else seenAfter rest (stripStr (lowerStr (cleanText q)) :: seen) := by
  rw [seenAfter, hres]

lemma formatAux_normal : ∀ (l : List Candidate) (seen : List (List Char)) (nid : Nat),
    ∀ r ∈ formatAux l seen nid,
      cleanText r.question = r.question ∧ (∀ o ∈ r.options, cleanText o = o) ∧
        r.answer ∈ r.options ∧ r.options.length = 4 := by
  intro l
  induction l with
  | nil => intro seen nid r hr; simp [formatAux] at hr
  | cons c rest ih =>
    intro seen nid r hr
    cases c with
    | malformed => exact ih seen nid r hr
    | mk q rawOpts ca =>
      cases hres : resolveAnswer ca (rawOpts.map cleanText) with
      | none =>
        rw [formatAux_cons_none _ _ _ _ _ _ hres] at hr
        exact ih seen nid r hr
      | some answer =>
        rw [formatAux_cons_some _ _ _ _ _ _ _ hres] at hr
        by_cases hkey : stripStr (lowerStr (cleanText q)) ∈ seen
        · rw [if_pos hkey] at hr; exact ih seen nid r hr
        · rw [if_neg hkey] at hr
          by_cases hlen : (rawOpts.map cleanText).length = 4
          · rw [if_neg (by simpa using hlen)] at hr
            by_cases hmem : answer ∈ rawOpts.map cleanText
            · rw [if_neg (by simpa using hmem)] at hr
              rcases List.mem_cons.mp hr with hr | hr
              · subst hr
                refine ⟨cleanText_idem q, ?_, hmem, hlen⟩
                intro o ho
                rcases List.mem_map.mp ho with ⟨x, _, hx⟩
                rw [← hx, cleanText_idem]
              · exact ih _ _ r hr
            · rw [if_pos hmem] at hr; exact ih _ _ r hr
          · rw [if_pos (by simpa using hlen)] at hr; exact ih _ _ r hr

lemma formatAux_keys : ∀ (l : List Candidate) (seen : List (List Char)) (nid : Nat),
    (∀ r ∈ formatAux l seen nid, rkey r ∉ seen) ∧
      (formatAux l seen nid).Pairwise (fun a b => rkey a ≠ rkey b) := by
  intro l
  induction l with
  | nil => intro seen nid; simp [formatAux]
  | cons c rest ih =>
    intro seen nid
    cases c with
    | malformed => exact ih seen nid
    | mk q rawOpts ca =>
      cases hres : resolveAnswer ca (rawOpts.map cleanText) with
      | none => rw [formatAux_cons_none _ _ _ _ _ _ hres]; exact ih seen nid
      | some answer =>
        rw [formatAux_cons_some _ _ _ _ _ _ _ hres]
        by_cases hkey : stripStr (lowerStr (cleanText q)) ∈ seen
        · rw [if_pos hkey]; exact ih seen nid
        · rw [if_neg hkey]
          by_cases hlen : (rawOpts.map cleanText).length = 4
          · rw [if_neg (by simpa using hlen)]
            by_cases hmem : answer ∈ rawOpts.map cleanText
            · rw [if_neg (by simpa using hmem)]
              constructor
              · intro r hr
                rcases List.mem_cons.mp hr with hr | hr
                · subst hr; exact hkey
                · exact fun hs => (ih _ _).1 r hr (List.mem_cons_of_mem _ hs)
              · rw [List.pairwise_cons]
                refine ⟨?_, (ih _ _).2⟩
                intro r hr heq
                exact (ih _ _).1 r hr (by rw [← heq]; exact List.mem_cons_self _ _)
            · rw [if_pos hmem]
              constructor
              · intro r hr hs
                exact (ih _ _).1 r hr (List.mem_cons_of_mem _ hs)
              · exact (ih _ _).2
          · rw [if_pos (by simpa using hlen)]
            constructor
            · intro r hr hs
              exact (ih _ _).1 r hr (List.mem_cons_of_mem _ hs)
            · exact (ih _ _).2

lemma formatAux_ids : ∀ (l : List Candidate) (seen : List (List Char)) (nid : Nat),
    (formatAux l seen nid).map Record.id =
      List.range' nid (formatAux l seen nid).length := by
  intro l
  induction l with
  | nil => intro seen nid; simp [formatAux]
  | cons c rest ih =>
    intro seen nid
    cases c with
    | malformed => exact ih seen nid
    | mk q rawOpts ca =>
      cases hres : resolveAnswer ca (rawOpts.map cleanText) with
      | none => rw [formatAux_cons_none _ _ _ _ _ _ hres]; exact ih seen nid
      | some answer =>
        rw [formatAux_cons_some _ _ _ _ _ _ _ hres]
        by_cases hkey : stripStr (lowerStr (cleanText q)) ∈ seen
        · rw [if_pos hkey]; exact ih seen nid
        · rw [if_neg hkey]
          by_cases hlen : (rawOpts.map cleanText).length = 4
          · rw [if_neg (by simpa using hlen)]
            by_cases hmem : answer ∈ rawOpts.map cleanText
            · rw [if_neg (by simpa using hmem)]
              rw [List.map_cons, List.length_cons, List.range'_succ, ih]
            · rw [if_pos hmem]; exact ih _ _
          · rw [if_pos (by simpa using hlen)]; exact ih _ _

lemma formatAux_append : ∀ (l1 l2 : List Candidate) (seen : List (List Char)) (nid : Nat),
    formatAux (l1 ++ l2) seen nid =
      formatAux l1 seen nid ++
        formatAux l2 (seenAfter l1 seen) (nid + (formatAux l1 seen nid).length) := by
  intro l1
  induction l1 with
  | nil => intro l2 seen nid; simp [formatAux, seenAfter]
  | cons c rest ih =>
    intro l2 seen nid
    cases c with
    | malformed =>
      show formatAux (rest ++ l2) seen nid = _
      rw [ih]
      rfl
    | mk q rawOpts ca =>
      rw [List.cons_append]
      cases hres : resolveAnswer ca (rawOpts.map cleanText) with
      | none =>
        rw [formatAux_cons_none _ _ _ _ _ _ hres, formatAux_cons_none _ _ _ _ _ _ hres,
          seenAfter_cons_none _ _ _ _ _ hres, ih]
      | some answer =>
        rw [formatAux_cons_some _ _ _ _ _ _ _ hres, formatAux_cons_some _ _ _ _ _ _ _ hres,
          seenAfter_cons_some _ _ _ _ _ _ hres]
        by_cases hkey : stripStr (lowerStr (cleanText q)) ∈ seen
        · rw [if_pos hkey, if_pos hkey, if_pos hkey, ih]
        · rw [if_neg hkey, if_neg hkey, if_neg hkey]
          by_cases hlen : (rawOpts.map cleanText).length = 4
          · have hlen' : ¬((!decide ((rawOpts.map cleanText).length = 4)) = true) := by
              simpa using hlen
            rw [if_neg hlen', if_neg hlen']
            by_cases hmem : answer ∈ rawOpts.map cleanText
            · have hmem' : ¬(answer ∉ rawOpts.map cleanText) := fun h => h hmem
              rw [if_neg hmem', if_neg hmem', ih]
              rw [List.cons_append, List.length_cons]
              have harith : nid + 1 + (formatAux rest (stripStr (lowerStr (cleanText q)) :: seen)
                  (nid + 1)).length =
                  nid + ((formatAux rest (stripStr (lowerStr (cleanText q)) :: seen)
                    (nid + 1)).length + 1) := by omega
              rw [harith]
            · rw [if_pos hmem, if_pos hmem, ih]
          · have hlen' : (!decide ((rawOpts.map cleanText).length = 4)) = true := by
              simpa using hlen
            rw [if_pos hlen', if_pos hlen', ih]

lemma seenAfter_mono : ∀ (l : List Candidate) (seen : List (List Char)) (a : List Char),
    a ∈ seen → a ∈ seenAfter l seen := by
  intro l
  induction l with
  | nil => intro seen a ha; exact ha
  | cons c rest ih =>
    intro seen a ha
    cases c with
    | malformed => exact ih seen a ha
    | mk q rawOpts ca =>
      rw [seenAfter]
      cases resolveAnswer ca (rawOpts.map cleanText) with
      | none => exact ih seen a ha
      | some answer =>
        by_cases hkey : stripStr (lowerStr (cleanText q)) ∈ seen
        · rw [if_pos hkey]; exact ih seen a ha
        · rw [if_neg hkey]; exact ih _ a (List.mem_cons_of_mem _ ha)

lemma seenAfter_resolved_mem (q : List Char) (rawOpts : List (List Char)) (ca : CAns)
    (rest : List Candidate) (seen : List (List Char)) (x : List Char)
    (hres : resolveAnswer ca (rawOpts.map cleanText) = some x) :
    stripStr (lowerStr (cleanText q)) ∈
      seenAfter (Candidate.mk q rawOpts ca :: rest) seen := by
  rw [seenAfter_cons_some _ _ _ _ _ _ hres]
  by_cases hkey : stripStr (lowerStr (cleanText q)) ∈ seen
  · rw [if_pos hkey]; exact seenAfter_mono rest seen _ hkey
  · rw [if_neg hkey]; exact seenAfter_mono rest _ _ (List.mem_cons_self _ _)

lemma seenAfter_append : ∀ (l1 l2 : List Candidate) (seen : List (List Char)),
    seenAfter (l1 ++ l2) seen = seenAfter l2 (seenAfter l1 seen) := by
  intro l1
  induction l1 with
  | nil => intro l2 seen; rfl
  | cons c rest ih =>
    intro l2 seen
    cases c with
    | malformed => exact ih l2 seen
    | mk q rawOpts ca =>
      rw [List.cons_append]
      cases hres : resolveAnswer ca (rawOpts.map cleanText) with
      | none =>
        rw [seenAfter_cons_none _ _ _ _ _ hres, seenAfter_cons_none _ _ _ _ _ hres, ih]
      | some answer =>
        rw [seenAfter_cons_some _ _ _ _ _ _ hres, seenAfter_cons_some _ _ _ _ _ _ hres]
        by_cases hkey : stripStr (lowerStr (cleanText q)) ∈ seen
        · rw [if_pos hkey, if_pos hkey, ih]
        · rw [if_neg hkey, if_neg hkey, ih]

lemma formatAux_skip_dup (q : List Char) (rawOpts : List (List Char)) (ca : CAns)
    (l : List Candidate) (seen : List (List Char)) (nid : Nat)
    (hkey : stripStr (lowerStr (cleanText q)) ∈ seen) :
    formatAux (Candidate.mk q rawOpts ca :: l) seen nid = formatAux l seen nid := by
  cases hres : resolveAnswer ca (rawOpts.map cleanText) with
  | none => exact formatAux_cons_none _ _ _ _ _ _ hres
  | some answer =>
    rw [formatAux_cons_some _ _ _ _ _ _ _ hres, if_pos hkey]

lemma seenAfter_skip_dup (q : List Char) (rawOpts : List (List Char)) (ca : CAns)
    (l : List Candidate) (seen : List (List Char))
    (hkey : stripStr (lowerStr (cleanText q)) ∈ seen) :
    seenAfter (Candidate.mk q rawOpts ca :: l) seen = seenAfter l seen := by
  cases hres : resolveAnswer ca (rawOpts.map cleanText) with
  | none => exact seenAfter_cons_none _ _ _ _ _ hres
  | some answer =>
    rw [seenAfter_cons_some _ _ _ _ _ _ hres, if_pos hkey]

/-! Chunker lemmas. -/

lemma splitChunksGo_eq_map_strip : ∀ (fuel : Nat) (text : List Char) (n : Nat),
    splitChunksGo fuel text n = (windowsGo fuel text n).map stripStr := by
  intro fuel
  induction fuel with
  | zero => intro text n; rfl
  | succ f ih =>
    intro text n
    cases text with
    | nil => rfl
    | cons c cs =>
      show stripStr ((c :: cs).take n) :: splitChunksGo f ((c :: cs).drop n) n = _
      rw [ih]
      rfl

lemma windowsGo_flatten : ∀ (fuel : Nat) (text : List Char) (n : Nat),
    0 < n → text.length ≤ fuel → (windowsGo fuel text n).flatten = text := by
  intro fuel
  induction fuel with
  | zero =>
    intro text n _ h
    have htext : text = [] := List.length_eq_zero.mp (Nat.le_zero.mp h)
    subst htext
    rfl
  | succ f ih =>
    intro text n hn h
    cases text with
    | nil => rfl
    | cons c cs =>
      show (List.take n (c :: cs) :: windowsGo f ((c :: cs).drop n) n).flatten = c :: cs
      rw [List.flatten_cons, ih _ n hn (by
        rw [List.length_drop]
        simp only [List.length_cons] at h ⊢
        omega)]
      exact List.take_append_drop n (c :: cs)

lemma windows_flatten (text : List Char) (n : Nat) (hn : 0 < n) :
    (windows text n).flatten = text :=
  windowsGo_flatten text.length text n hn (Nat.le_refl _)

lemma splitChunks_eq_map_strip (text : List Char) (n : Nat) :
    splitChunks text n = (windows text n).map stripStr :=
  splitChunksGo_eq_map_strip text.length text n

/-! Retry-loop lemmas. -/

lemma extractAttemptsGo_succ (o : Nat → Except Unit (List JVal)) (f a : Nat) :
    extractAttemptsGo o (f + 1) a =
      match o a with
      | Except.error _ => extractAttemptsGo o f (a + 1)
      | Except.ok elems =>
        if validateMcqs (parseDecoded elems) then parseDecoded elems
        else extractAttemptsGo o f (a + 1) := rfl

lemma extractAttemptsGo_succ_error (o : Nat → Except Unit (List JVal)) (f a : Nat)
    (e : Unit) (h : o a = Except.error e) :
    extractAttemptsGo o (f + 1) a = extractAttemptsGo o f (a + 1) := by
  rw [extractAttemptsGo_succ, h]

lemma extractAttemptsGo_succ_ok (o : Nat → Except Unit (List JVal)) (f a : Nat)
    (elems : List JVal) (h : o a = Except.ok elems) :
    extractAttemptsGo o (f + 1) a =
      if validateMcqs (parseDecoded elems) then parseDecoded elems
      else extractAttemptsGo o f (a + 1) := by
  rw [extractAttemptsGo_succ, h]

lemma extractAttemptsGo_congr : ∀ (fuel attempt : Nat)
    (o o2 : Nat → Except Unit (List JVal)),
    (∀ i, attempt ≤ i → i < attempt + fuel → o i = o2 i) →
    extractAttemptsGo o fuel attempt = extractAttemptsGo o2 fuel attempt := by
  intro fuel
  induction fuel with
  | zero => intro attempt o o2 _; rfl
  | succ f ih =>
    intro attempt o o2 hagree
    have hoa : o attempt = o2 attempt :=
      hagree attempt (Nat.le_refl _) (by omega)
    have hrest : ∀ i, attempt + 1 ≤ i → i < attempt + 1 + f → o i = o2 i := by
      intro i h1 h2
      exact hagree i (by omega) (by omega)
    cases ho2 : o2 attempt with
    | error e =>
      rw [extractAttemptsGo_succ_error o f attempt e (hoa.trans ho2),
        extractAttemptsGo_succ_error o2 f attempt e ho2]
      exact ih (attempt + 1) o o2 hrest
    | ok elems =>
      rw [extractAttemptsGo_succ_ok o f attempt elems (hoa.trans ho2),
        extractAttemptsGo_succ_ok o2 f attempt elems ho2]
      by_cases hv : validateMcqs (parseDecoded elems) = true
      · rw [if_pos hv, if_pos hv]
      · rw [if_neg hv, if_neg hv]
        exact ih (attempt + 1) o o2 hrest

lemma extractAttemptsGo_all_error : ∀ (fuel attempt : Nat)
    (o : Nat → Except Unit (List JVal)),
    (∀ i, attempt ≤ i → i < attempt + fuel → o i = Except.error ()) →
    extractAttemptsGo o fuel attempt = [] := by
  intro fuel
  induction fuel with
  | zero => intro attempt o _; rfl
  | succ f ih =>
    intro attempt o hfail
    rw [extractAttemptsGo_succ_error o f attempt ()
      (hfail attempt (Nat.le_refl _) (by omega))]
    exact ih (attempt + 1) o (fun i h1 h2 => hfail i (by omega) (by omega))

/-! Structure of cleaned MCQs. -/

lemma cleanMcq_some_shape (v : JVal) (m : Mcq) (h : cleanMcq v = some m) :
    m.options.length = 4 ∧ 0 ≤ m.correct_answer ∧ m.correct_answer ≤ 3 := by
  cases v with
  | jnull => simp [cleanMcq] at h
  | jbool b => simp [cleanMcq] at h
  | jint n => simp [cleanMcq] at h
  | jstr s => simp [cleanMcq] at h
  | jarr l => simp [cleanMcq] at h
  | jobj fields =>
    simp only [cleanMcq] at h
    split at h
    · simp at h
    · split at h
      · split at h
        · simp at h
        · split at h
          · simp at h
          · split at h
            · simp at h
            · rw [Option.some_inj] at h
              subst h
              refine ⟨?_, ?_, ?_⟩ <;> simp_all
      · simp at h

lemma validateMcqs_parseDecoded (elems : List JVal) :
    validateMcqs (parseDecoded elems) = true := by
  rw [validateMcqs, List.all_eq_true]
  intro m hm
  rcases List.mem_filterMap.mp hm with ⟨v, _, hv⟩
  obtain ⟨h1, h2, h3⟩ := cleanMcq_some_shape v m hv
  simp [h1, h2, h3]

lemma map_self_of_mem {α : Type} (f : α → α) :
    ∀ (l : List α), (∀ a ∈ l, f a = a) → l.map f = l
  | [], _ => rfl
  | a :: t, h => by
    rw [List.map_cons, h a (List.mem_cons_self a t),
      map_self_of_mem f t (fun b hb => h b (List.mem_cons_of_mem a hb))]

lemma formatAux_pass2 : ∀ (rs : List Record) (seen : List (List Char)) (nid : Nat),
    (∀ r ∈ rs, cleanText r.question = r.question ∧ (∀ o ∈ r.options, cleanText o = o) ∧
      r.answer ∈ r.options ∧ r.options.length = 4) →
    (∀ r ∈ rs, rkey r ∉ seen) →
    rs.Pairwise (fun a b => rkey a ≠ rkey b) →
    rs.map Record.id = List.range' nid rs.length →
    formatAux (rs.map recordToCandidate) seen nid = rs := by
  intro rs
  induction rs with
  | nil => intro seen nid _ _ _ _; rfl
  | cons r rest ih =>
    intro seen nid hnorm hseen hpair hids
    obtain ⟨hq, hopts, hansmem, hlen4⟩ := hnorm r (List.mem_cons_self r rest)
    have hmapopts : r.options.map cleanText = r.options :=
      map_self_of_mem cleanText r.options hopts
    have hansclean : cleanText r.answer = r.answer := hopts r.answer hansmem
    have hres : resolveAnswer (CAns.txt r.answer) (r.options.map cleanText) = some r.answer := by
      show some (cleanText r.answer) = some r.answer
      rw [hansclean]
    rw [List.pairwise_cons] at hpair
    obtain ⟨hphead, hptail⟩ := hpair
    rw [List.map_cons, List.length_cons, List.range'_succ] at hids
    injection hids with hid hids'
    show formatAux
      (Candidate.mk r.question r.options (CAns.txt r.answer) :: rest.map recordToCandidate)
      seen nid = r :: rest
    rw [formatAux_cons_some _ _ _ _ _ _ _ hres, hq, hmapopts]
    have hkeyseen : stripStr (lowerStr r.question) ∉ seen :=
      hseen r (List.mem_cons_self r rest)
    rw [if_neg hkeyseen]
    have hlen' : ¬((!decide (r.options.length = 4)) = true) := by simpa using hlen4
    rw [if_neg hlen']
    have hmem' : ¬(r.answer ∉ r.options) := fun hh => hh hansmem
    rw [if_neg hmem']
    congr 1
    · rw [← hid]
    · apply ih
      · exact fun r' hr' => hnorm r' (List.mem_cons_of_mem r hr')
      · intro r' hr' hmem
        rcases List.mem_cons.mp hmem with he | he
        · exact hphead r' hr' he.symm
        · exact hseen r' (List.mem_cons_of_mem r hr') he
      · exact hptail
      · exact hids'

/-! Filtering format_mcq output by dedup key. -/

lemma formatAux_filter_seen : ∀ (l : List Candidate) (seen : List (List Char)) (nid : Nat)
    (k : List Char), k ∈ seen →
    (formatAux l seen nid).filter (fun r => decide (rkey r = k)) = [] := by
  intro l seen nid k hk
  rw [List.filter_eq_nil_iff]
  intro r hr
  have hnot := (formatAux_keys l seen nid).1 r hr
  simp only [decide_eq_true_eq]
  intro heq
  exact hnot (heq ▸ hk)

lemma formatAux_filter_fresh : ∀ (pre : List Candidate) (seen : List (List Char)) (nid : Nat)
    (k : List Char), k ∉ seen → (∀ c ∈ pre, keyOf c ≠ some k) →
    (formatAux pre seen nid).filter (fun r => decide (rkey r = k)) = [] ∧
      k ∉ seenAfter pre seen := by
  intro pre
  induction pre with
  | nil => intro seen nid k hk _; exact ⟨rfl, hk⟩
  | cons c rest ih =>
    intro seen nid k hk hpre
    have hrest : ∀ c' ∈ rest, keyOf c' ≠ some k :=
      fun c' hc' => hpre c' (List.mem_cons_of_mem _ hc')
    cases c with
    | malformed =>
      show (formatAux rest seen nid).filter _ = [] ∧ k ∉ seenAfter rest seen
      exact ih seen nid k hk hrest
    | mk q rawOpts ca =>
      have hkeyne : stripStr (lowerStr (cleanText q)) ≠ k := by
        intro he
        exact hpre _ (List.mem_cons_self _ _) (by rw [keyOf, he])
      cases hres : resolveAnswer ca (rawOpts.map cleanText) with
      | none =>
        rw [formatAux_cons_none _ _ _ _ _ _ hres, seenAfter_cons_none _ _ _ _ _ hres]
        exact ih seen nid k hk hrest
      | some answer =>
        rw [formatAux_cons_some _ _ _ _ _ _ _ hres, seenAfter_cons_some _ _ _ _ _ _ hres]
        by_cases hkey : stripStr (lowerStr (cleanText q)) ∈ seen
        · rw [if_pos hkey, if_pos hkey]
          exact ih seen nid k hk hrest
        · rw [if_neg hkey, if_neg hkey]
          have hk' : k ∉ stripStr (lowerStr (cleanText q)) :: seen := by
            intro hmem
            rcases List.mem_cons.mp hmem with he | he
            · exact hkeyne he.symm
            · exact hk he
          by_cases hlen : (rawOpts.map cleanText).length = 4
          · have hlen' : ¬((!decide ((rawOpts.map cleanText).length = 4)) = true) := by
              simpa using hlen
            rw [if_neg hlen']
            by_cases hmem : answer ∈ rawOpts.map cleanText
            · have hmem' : ¬(answer ∉ rawOpts.map cleanText) := fun hh => hh hmem
              rw [if_neg hmem']
              refine ⟨?_, (ih _ (nid + 1) k hk' hrest).2⟩
              rw [List.filter_cons, if_neg (by simp [rkey, hkeyne])]
              exact (ih _ (nid + 1) k hk' hrest).1
            · rw [if_pos hmem]
              exact ih _ nid k hk' hrest
          · have hlen' : (!decide ((rawOpts.map cleanText).length = 4)) = true := by
              simpa using hlen
            rw [if_pos hlen']
            exact ih _ nid k hk' hrest

/-! Claim theorems. -/

/-- C1 counterexample: the chunker strips each window, so on the input
consisting of a space followed by the letter a, the single chunk is just
the letter a and concatenation does not reproduce the input, although the
window size CHUNK_SIZE is positive. -/
theorem c1_roundtrip_counterexample :
    (splitTextIntoChunks (" a".toList)).flatten ≠ (" a".toList) ∧
      splitTextIntoChunks (" a".toList) = ["a".toList] ∧ 0 < CHUNK_SIZE := by
  decide

/-- C1 (amended): concatenating the chunks reproduces the input exactly
for every text and positive window size in which every raw fixed-size
window is unchanged by stripping (no leading or trailing whitespace at
the window boundaries); in general each window is stripped before being
returned. -/
theorem c1_chunker_roundtrip (text : List Char) (n : Nat) (hn : 0 < n)
    (hw : ∀ w ∈ windows text n, stripStr w = w) :
    (splitChunks text n).flatten = text := by
  rw [splitChunks_eq_map_strip, map_self_of_mem stripStr _ hw, windows_flatten text n hn]

/-- C1 witness: the amended round trip evaluated on a concrete
whitespace-free text with window size 2. -/
theorem c1_chunker_roundtrip_witness :
    0 < 2 ∧ (∀ w ∈ windows ("abcde".toList) 2, stripStr w = w) ∧
      (splitChunks ("abcde".toList) 2).flatten = "abcde".toList :=
  ⟨by decide, by decide, c1_chunker_roundtrip ("abcde".toList) 2 (by decide) (by decide)⟩

/-- C2 counterexample: an array with one valid and one invalid element is
not rejected as a whole: the invalid element alone is dropped during
parsing, validation of the remaining cleaned list succeeds, and the
attempt yields one accepted candidate rather than none. -/
theorem c2_reject_counterexample :
    cleanMcq sampleBadElem = none ∧
      parseDecoded [sampleGoodElem, sampleBadElem] =
        [⟨"Q?".toList, ["1".toList, "2".toList, "3".toList, "4".toList], 0,
          "No explanation".toList⟩] ∧
      validateMcqs (parseDecoded [sampleGoodElem, sampleBadElem]) = true ∧
      parseDecoded [sampleGoodElem, sampleBadElem] ≠ [] := by
  decide

/-- C2 (amended): for every decoded model-response array, an element
failing structural validation is dropped individually by the parse step;
the surviving cleaned elements always pass the subsequent validation, so
the attempt is accepted with exactly the cleaned valid elements rather
than being rejected and retried. -/
theorem c2_invalid_elements_dropped (elems : List JVal)
    (o : Nat → Except Unit (List JVal)) (f a : Nat) (h : o a = Except.ok elems) :
    validateMcqs (parseDecoded elems) = true ∧
      extractAttemptsGo o (f + 1) a = parseDecoded elems := by
  have hv := validateMcqs_parseDecoded elems
  exact ⟨hv, by rw [extractAttemptsGo_succ_ok o f a elems h, if_pos hv]⟩

/-- C2 witness: the amended statement evaluated on the concrete
two-element array with one invalid element. -/
theorem c2_invalid_elements_dropped_witness :
    validateMcqs (parseDecoded [sampleGoodElem, sampleBadElem]) = true ∧
      extractAttemptsGo (fun _ => Except.ok [sampleGoodElem, sampleBadElem]) 3 0 =
        parseDecoded [sampleGoodElem, sampleBadElem] :=
  c2_invalid_elements_dropped [sampleGoodElem, sampleBadElem]
    (fun _ => Except.ok [sampleGoodElem, sampleBadElem]) 2 0 rfl

/-- C3: normalization is idempotent: feeding the records produced by
format_mcq back in as candidates (their answer string standing as the
string-valued correct_answer) reproduces exactly the same records,
including identical ids. -/
theorem c3_normalize_idempotent (X : List Candidate) :
    formatMcq ((formatMcq X).map recordToCandidate) = formatMcq X := by
  show formatAux ((formatAux X [] 1).map recordToCandidate) [] 1 = formatAux X [] 1
  apply formatAux_pass2
  · exact formatAux_normal X [] 1
  · intro r _
    simp
  · exact (formatAux_keys X [] 1).2
  · exact formatAux_ids X [] 1

/-- C4: every record output by format_mcq has its answer string among its
options and exactly 4 options. -/
theorem c4_output_invariant (mcqs : List Candidate) (r : Record)
    (hr : r ∈ formatMcq mcqs) : r.answer ∈ r.options ∧ r.options.length = 4 := by
  have h := formatAux_normal mcqs [] 1 r hr
  exact ⟨h.2.2.1, h.2.2.2⟩

/-- C4 witness: the invariant evaluated on a concrete accepted record. -/
theorem c4_output_invariant_witness :
    (⟨1, "2+2?".toList, ["1".toList, "2".toList, "3".toList, "4".toList],
      "4".toList⟩ : Record) ∈
      formatMcq [Candidate.mk ("2+2?".toList)
        ["1".toList, "2".toList, "3".toList, "4".toList] (CAns.idx 3)] ∧
    (("4".toList ∈ ["1".toList, "2".toList, "3".toList, "4".toList]) ∧
      (["1".toList, "2".toList, "3".toList, "4".toList] : List (List Char)).length = 4) :=
  ⟨by decide,
   c4_output_invariant
     [Candidate.mk ("2+2?".toList)
       ["1".toList, "2".toList, "3".toList, "4".toList] (CAns.idx 3)]
     ⟨1, "2+2?".toList, ["1".toList, "2".toList, "3".toList, "4".toList], "4".toList⟩
     (by decide)⟩

/-- C5: the ids of the format_mcq output are exactly the contiguous
sequence from 1 to the output length, in output order, assigned in
acceptance order. -/
theorem c5_sequential_ids (mcqs : List Candidate) :
    (formatMcq mcqs).map Record.id = List.range' 1 (formatMcq mcqs).length :=
  formatAux_ids mcqs [] 1

/-- C6: per-chunk extraction is bounded and non-throwing: its result
depends only on the outcomes of the first MAX_RETRIES attempts, and if
every one of those attempts raises, the result is the empty list. -/
theorem c6_bounded_retries (o o2 : Nat → Except Unit (List JVal)) :
    ((∀ i, i < MAX_RETRIES → o i = o2 i) → extractFromText o = extractFromText o2) ∧
      ((∀ i, i < MAX_RETRIES → o i = Except.error ()) → extractFromText o = []) := by
  constructor
  · intro hagree
    exact extractAttemptsGo_congr MAX_RETRIES 0 o o2
      (fun i _ h2 => hagree i (by simpa using h2))
  · intro hfail
    exact extractAttemptsGo_all_error MAX_RETRIES 0 o
      (fun i _ h2 => hfail i (by simpa using h2))

/-- C6 witness: a chunk whose three attempts all raise yields the empty
list. -/
theorem c6_bounded_retries_witness :
    extractFromText (fun _ => Except.error ()) = [] :=
  (c6_bounded_retries (fun _ => Except.error ()) (fun _ => Except.error ())).2
    (fun _ _ => rfl)

/-- C7 counterexample: a list containing two individually valid records
whose questions differ only by case and leading whitespace can yield no
record at all for that question: an earlier record with the same dedup
key that resolves its answer but fails the option-count check poisons
the key, so the claimed exactly-one-record property fails. -/
theorem c7_dedup_counterexample :
    formatMcq [Candidate.mk ("Q?".toList) ["1".toList, "2".toList] (CAns.idx 0),
      Candidate.mk ("Q?".toList)
        ["1".toList, "2".toList, "3".toList, "4".toList] (CAns.idx 0),
      Candidate.mk (" q?".toList)
        ["1".toList, "2".toList, "3".toList, "4".toList] (CAns.idx 0)] = [] ∧
    formatMcq [Candidate.mk ("Q?".toList)
        ["1".toList, "2".toList, "3".toList, "4".toList] (CAns.idx 0)] ≠ [] ∧
    formatMcq [Candidate.mk (" q?".toList)
        ["1".toList, "2".toList, "3".toList, "4".toList] (CAns.idx 0)] ≠ [] ∧
    keyOf (Candidate.mk (" q?".toList)
        ["1".toList, "2".toList, "3".toList, "4".toList] (CAns.idx 0)) =
      keyOf (Candidate.mk ("Q?".toList)
        ["1".toList, "2".toList, "3".toList, "4".toList] (CAns.idx 0)) := by
  decide

/-- C7 (amended): when the first record in the input bearing a given
dedup key is itself fully valid (its answer resolves, it has exactly 4
cleaned options and the answer is among them), format_mcq outputs
exactly one record with that key, built from that first record, even
when a case or whitespace variant of the question occurs later in the
list. -/
theorem c7_dedup_first_valid_wins (pre : List Candidate) (q1 : List Char)
    (opts1 : List (List Char)) (ca1 : CAns) (mid : List Candidate) (q2 : List Char)
    (opts2 : List (List Char)) (ca2 : CAns) (post : List Candidate) (a : List Char)
    (hres : resolveAnswer ca1 (opts1.map cleanText) = some a)
    (hlen : (opts1.map cleanText).length = 4)
    (hmem : a ∈ opts1.map cleanText)
    (hpre : ∀ c ∈ pre, keyOf c ≠ keyOf (Candidate.mk q1 opts1 ca1))
    (_hk2 : keyOf (Candidate.mk q2 opts2 ca2) = keyOf (Candidate.mk q1 opts1 ca1)) :
    ∃ i, (formatMcq (pre ++ Candidate.mk q1 opts1 ca1 ::
        (mid ++ Candidate.mk q2 opts2 ca2 :: post))).filter
      (fun r => decide (rkey r = stripStr (lowerStr (cleanText q1)))) =
      [⟨i, cleanText q1, opts1.map cleanText, a⟩] := by
  have hfresh := formatAux_filter_fresh pre [] 1 (stripStr (lowerStr (cleanText q1)))
    (by simp) (by
      intro c hc
      have hne := hpre c hc
      simpa [keyOf] using hne)
  refine ⟨1 + (formatAux pre [] 1).length, ?_⟩
  show (formatAux (pre ++ Candidate.mk q1 opts1 ca1 ::
      (mid ++ Candidate.mk q2 opts2 ca2 :: post)) [] 1).filter _ = _
  rw [formatAux_append pre _ [] 1, List.filter_append, hfresh.1, List.nil_append]
  rw [formatAux_cons_some _ _ _ _ _ _ _ hres]
  rw [if_neg hfresh.2]
  have hlen' : ¬((!decide ((opts1.map cleanText).length = 4)) = true) := by simpa using hlen
  rw [if_neg hlen']
  have hmem' : ¬(a ∉ opts1.map cleanText) := fun hh => hh hmem
  rw [if_neg hmem']
  rw [List.filter_cons, if_pos (by simp [rkey])]
  rw [formatAux_filter_seen _ _ _ _ (List.mem_cons_self _ _)]

/-- C7 witness: the amended statement on a concrete pair of records
differing only in case and leading whitespace, the first one valid. -/
theorem c7_dedup_first_valid_wins_witness :
    ∃ i, (formatMcq [Candidate.mk ("Q?".toList)
        ["1".toList, "2".toList, "3".toList, "4".toList] (CAns.idx 0),
      Candidate.mk (" q?".toList)
        ["1".toList, "2".toList, "3".toList, "4".toList] (CAns.idx 0)]).filter
      (fun r => decide (rkey r = stripStr (lowerStr (cleanText ("Q?".toList))))) =
      [⟨i, "Q?".toList, ["1".toList, "2".toList, "3".toList, "4".toList], "1".toList⟩] :=
  c7_dedup_first_valid_wins [] ("Q?".toList)
    ["1".toList, "2".toList, "3".toList, "4".toList] (CAns.idx 0) [] (" q?".toList)
    ["1".toList, "2".toList, "3".toList, "4".toList] (CAns.idx 0) [] ("1".toList)
    (by decide) (by decide) (by decide) (by simp) (by decide)

/-- C9: a record that resolves its answer but is then rejected by a
structural check still records its dedup key as seen, so a later fully
valid record with the same cleaned lower-cased question contributes
nothing: deleting it from the input leaves the output unchanged,
although on its own it would be accepted. -/
theorem c9_seen_before_validation (pre mid post : List Candidate) (qp : List Char)
    (op : List (List Char)) (cap : CAns) (qc : List Char) (oc : List (List Char))
    (cac : CAns) (ap ac : List Char)
    (hresp : resolveAnswer cap (op.map cleanText) = some ap)
    (_hrej : ¬((op.map cleanText).length = 4 ∧ ap ∈ op.map cleanText))
    (hresc : resolveAnswer cac (oc.map cleanText) = some ac)
    (hlenc : (oc.map cleanText).length = 4)
    (hmemc : ac ∈ oc.map cleanText)
    (hkey : keyOf (Candidate.mk qc oc cac) = keyOf (Candidate.mk qp op cap)) :
    formatMcq (pre ++ Candidate.mk qp op cap :: (mid ++ Candidate.mk qc oc cac :: post)) =
      formatMcq (pre ++ Candidate.mk qp op cap :: (mid ++ post)) ∧
    formatMcq [Candidate.mk qc oc cac] = [⟨1, cleanText qc, oc.map cleanText, ac⟩] := by
  have hkc : stripStr (lowerStr (cleanText qc)) = stripStr (lowerStr (cleanText qp)) := by
    simpa [keyOf] using hkey
  constructor
  · have hassoc1 : pre ++ Candidate.mk qp op cap :: (mid ++ Candidate.mk qc oc cac :: post) =
        (pre ++ Candidate.mk qp op cap :: mid) ++ (Candidate.mk qc oc cac :: post) := by
      simp
    have hassoc2 : pre ++ Candidate.mk qp op cap :: (mid ++ post) =
        (pre ++ Candidate.mk qp op cap :: mid) ++ post := by
      simp
    rw [hassoc1, hassoc2]
    show formatAux _ [] 1 = formatAux _ [] 1
    rw [formatAux_append (pre ++ Candidate.mk qp op cap :: mid)
        (Candidate.mk qc oc cac :: post) [] 1,
      formatAux_append (pre ++ Candidate.mk qp op cap :: mid) post [] 1]
    congr 1
    have hmemS : stripStr (lowerStr (cleanText qc)) ∈
        seenAfter (pre ++ Candidate.mk qp op cap :: mid) [] := by
      rw [hkc, seenAfter_append]
      exact seenAfter_resolved_mem qp op cap mid _ ap hresp
    exact formatAux_skip_dup qc oc cac post _ _ hmemS
  · show formatAux [Candidate.mk qc oc cac] [] 1 = _
    rw [formatAux_cons_some _ _ _ _ _ _ _ hresc, if_neg (by simp)]
    rw [if_neg (by simpa using hlenc), if_neg (fun hh => hh hmemc)]
    rfl

/-- C9 witness: the poisoning behaviour on concrete records: the valid
variant contributes nothing next to the rejected key holder, yet alone
it is accepted. -/
theorem c9_seen_before_validation_witness :
    formatMcq [Candidate.mk ("Q?".toList) ["1".toList, "2".toList] (CAns.idx 0),
      Candidate.mk (" q?".toList)
        ["1".toList, "2".toList, "3".toList, "4".toList] (CAns.idx 0)] =
      formatMcq [Candidate.mk ("Q?".toList) ["1".toList, "2".toList] (CAns.idx 0)] ∧
    formatMcq [Candidate.mk (" q?".toList)
        ["1".toList, "2".toList, "3".toList, "4".toList] (CAns.idx 0)] =
      [⟨1, "q?".toList, ["1".toList, "2".toList, "3".toList, "4".toList], "1".toList⟩] :=
  c9_seen_before_validation [] [] [] ("Q?".toList) ["1".toList, "2".toList] (CAns.idx 0)
    (" q?".toList) ["1".toList, "2".toList, "3".toList, "4".toList] (CAns.idx 0)
    ("1".toList) ("1".toList) (by decide) (by decide) (by decide) (by decide)
    (by decide) (by decide)

/-- C8: with an empty API key, extraction returns the fixed list of 3
demo records, for every input text and every oracle behaviour. -/
theorem c8_demo_mode (text : List Char) (oracle : Nat → Nat → Except Unit (List JVal)) :
    extractMcq [] text oracle = mockMcqs ∧ mockMcqs.length = 3 :=
  ⟨rfl, rfl⟩

/-- C10: get_page_count turns any failure of the underlying PDF library
into the page count 0 instead of raising, and passes a successful count
through unchanged. -/
theorem c10_page_count_leniency :
    getPageCount (Except.error ()) = 0 ∧ ∀ n, getPageCount (Except.ok n) = n :=
  ⟨rfl, fun _ => rfl⟩

end MCQExtractor
